import Mathlib

/-!
Verification of the numeric core of the go-data-mining-workshop repository.

The Go sources are shallowly embedded: `float64` values are modelled as exact
rationals, `math.Sqrt` is an explicit function parameter `s : ℚ → ℚ` (none of
the proved properties depend on the value of a square root, only on the
sums it is applied to), and the random sources (`math/rand` permutations,
shuffles and index draws) are explicit function parameters, since the Go code
only relies on their interface contracts (a permutation of the index range, an
index below the length).  Fallible code is embedded with `Option`/`Except`.
-/

/-- Go's `int(x)` conversion of a `float64` truncates toward zero.  On exact
rationals this is T-division of the numerator by the denominator. -/
def goTrunc (q : ℚ) : ℤ := q.num.tdiv (q.den : ℤ)

/-- Go's `strings.TrimSpace`: strip leading and trailing whitespace.  (Defined
on the character list by structural recursion so that concrete instances
evaluate.) -/
def goTrim (s : String) : String :=
  ⟨((s.data.dropWhile Char.isWhitespace).reverse.dropWhile
      Char.isWhitespace).reverse⟩

namespace Clustering

/-- Structure `Cluster` from `exercises/clustering/clustering.go`: a centroid plus the
points currently assigned to it. -/
structure Cluster where
  centroid : List ℚ
  points : List (List ℚ)
deriving DecidableEq, Repr

/-- The accumulated sum of squared coordinate differences computed by the loop
in `distance` (the two points have equal length whenever the loop runs). -/
def sqDiffSum (p1 p2 : List ℚ) : ℚ :=
  (List.zipWith (fun a b => (a - b) * (a - b)) p1 p2).sum

/-- Function `distance` from `clustering.go`: returns `math.Inf(1)` (here `⊤`) when the
lengths differ, otherwise the square root (the parameter `s`) of the sum of
squared differences. -/
def distance (s : ℚ → ℚ) (p1 p2 : List ℚ) : WithTop ℚ :=
  if p1.length ≠ p2.length then ⊤ else ((s (sqDiffSum p1 p2) : ℚ) : WithTop ℚ)

/-- The loop of `findClosestCluster`: `minDist` starts at `+Inf`, and the index
is updated on a strictly smaller distance, so the first centroid attaining the
minimum wins ties. -/
def findAux (s : ℚ → ℚ) (point : List ℚ) :
    List (List ℚ) → WithTop ℚ → ℕ → ℕ → ℕ
  | [], _, best, _ => best
  | c :: cs, minDist, best, i =>
      let d := distance s point c
      if d < minDist then findAux s point cs d i (i + 1)
      else findAux s point cs minDist best (i + 1)

/-- Function `findClosestCluster` from `clustering.go`. -/
def findClosestCluster (s : ℚ → ℚ) (point : List ℚ) (centroids : List (List ℚ)) : ℕ :=
  findAux s point centroids ⊤ 0 0

/-- One step of the accumulation loop in `calculateCentroid`: the entries of
`point` are added into the matching entries of the accumulator.  (When a point
is longer than the first point Go would panic on the out-of-range index; this
total model ignores the excess, and every theorem below about centroids assumes
rows of equal length, where both agree.) -/
def addInto (acc point : List ℚ) : List ℚ :=
  List.zipWith (· + ·) acc point ++ acc.drop point.length

/-- Function `calculateCentroid` from `clustering.go`: sum the points coordinate-wise
into a zero vector of the first point's dimension, then divide by the count.
An empty list yields the `nil` point, modelled as `[]`. -/
def calculateCentroid (points : List (List ℚ)) : List ℚ :=
  match points with
  | [] => []
  | p :: _ =>
      (points.foldl addInto (List.replicate p.length 0)).map
        (fun x => x / (points.length : ℚ))

/-- Append a point to the cluster at the given index (the
`clusters[closestIdx].Points = append(...)` statement). -/
def appendAt : List Cluster → ℕ → List ℚ → List Cluster
  | [], _, _ => []
  | c :: cs, 0, p => { c with points := c.points ++ [p] } :: cs
  | c :: cs, n + 1, p => c :: appendAt cs n p

/-- The assignment pass of `kmeans`: build one cluster per centroid with no
points, then append every data point to its closest cluster.  Both the
in-iteration pass and the final pass after the iteration cap have this shape. -/
def assignPoints (s : ℚ → ℚ) (centroids : List (List ℚ)) (data : List (List ℚ)) :
    List Cluster :=
  data.foldl (fun cl p => appendAt cl (findClosestCluster s p centroids) p)
    (centroids.map (fun c => { centroid := c, points := [] }))

/-- The convergence threshold `1e-6` of `kmeans`. -/
def epsKM : ℚ := 1 / 1000000

/-- The centroid-update loop of `kmeans`: a cluster with at least one point
gets `calculateCentroid` of its points (clearing the convergence flag when it
moved by more than `1e-6`), an empty cluster keeps its previous centroid.
Returns the updated centroids and the convergence flag. -/
def updateStep (s : ℚ → ℚ) : List Cluster → List (List ℚ) → List (List ℚ) × Bool
  | [], _ => ([], true)
  | _ :: _, [] => ([], true)
  | c :: cl, cent :: cents =>
      let rest := updateStep s cl cents
      if 0 < c.points.length then
        let newCentroid := calculateCentroid c.points
        (newCentroid :: rest.1,
          (!(decide ((epsKM : WithTop ℚ) < distance s cent newCentroid))) && rest.2)
      else (cent :: rest.1, rest.2)

/-- The iteration loop of `kmeans`, with the remaining iteration budget as
fuel.  When the budget is exhausted a final assignment pass is performed with
the current centroids; inside an iteration, the clusters (holding the
pre-update centroids) are returned as soon as the update converged. -/
def kmeansLoop (s : ℚ → ℚ) (data : List (List ℚ)) : ℕ → List (List ℚ) → List Cluster
  | 0, centroids => assignPoints s centroids data
  | fuel + 1, centroids =>
      let clusters := assignPoints s centroids data
      let u := updateStep s clusters centroids
      if u.2 then clusters else kmeansLoop s data fuel u.1

/-- Function `kmeans` from `clustering.go`.  `picks` models the successive results of
`rand.Intn(len(data))` used to seed the centroids (each below `data.length`
for a genuine random source).  The `nil` return on invalid arguments is
modelled as `none`. -/
def kmeans (s : ℚ → ℚ) (picks : ℕ → ℕ) (data : List (List ℚ)) (k : ℤ)
    (maxIterations : ℕ) : Option (List Cluster) :=
  if data.length = 0 ∨ k ≤ 0 then none
  else
    some (kmeansLoop s data maxIterations
      ((List.range k.toNat).map (fun i => data.getD (picks i) [])))

end Clustering

/-- The row filter shared verbatim by the regression and clustering loaders:
skip the header, then keep a row only when it is non-empty, not all-empty
(`strings.Join(row, "") == ""`), and has no field that is blank after
trimming. -/
def validRows (records : List (List String)) : List (List String) :=
  (records.drop 1).filter (fun row =>
    if row.length = 0 ∨ String.join row = "" then false
    else row.all (fun val => !(goTrim val == "")))

/-- Parse a list of fields with `strconv.ParseFloat(strings.TrimSpace(v), 64)`
(modelled by the parameter `pf`), starting at column index `j`; the first
failing column index is reported. -/
def parseFields (pf : String → Option ℚ) : List String → ℕ → Except ℕ (List ℚ)
  | [], _ => .ok []
  | v :: vs, j =>
      match pf (goTrim v) with
      | none => .error j
      | some x => (parseFields pf vs (j + 1)).map (fun xs => x :: xs)

namespace Clustering

/-- Errors of the clustering `loadData`: the `"not enough data"` guard and the
`"error parsing value at row %d, col %d"` message. -/
inductive LoadErr where
  | notEnoughData : LoadErr
  | valueErr (row col : ℕ) : LoadErr
deriving DecidableEq, Repr

/-- The parsing loop of the clustering `loadData` over the filtered rows:
column 0 (the zone name) is skipped, columns `1 ..` are parsed; the reported
row number is the index in the filtered rows plus one. -/
def loadPoints (pf : String → Option ℚ) : List (List String) → ℕ →
    Except LoadErr (List (List ℚ))
  | [], _ => .ok []
  | row :: rows, i =>
      match parseFields pf (row.drop 1) 1 with
      | .error j => .error (.valueErr (i + 1) j)
      | .ok pt => (loadPoints pf rows (i + 1)).map (fun ps => pt :: ps)

/-- Function `loadData` from `clustering.go`, over the already-read CSV records. -/
def loadData (pf : String → Option ℚ) (records : List (List String)) :
    Except LoadErr (List (List ℚ)) :=
  if records.length < 2 then .error .notEnoughData
  else loadPoints pf (validRows records) 0

end Clustering

namespace Regression

/-- Structure `TrainData` from `exercises/regression/regration.go`. -/
structure TrainData where
  features : List (List ℚ)
  targets : List ℚ
deriving DecidableEq, Repr

/-- Errors of the regression `loadData`: the `"not enough data"` guard,
`"error parsing feature at row %d, col %d"` and
`"error parsing target at row %d"`. -/
inductive LoadErr where
  | notEnoughData : LoadErr
  | featureErr (row col : ℕ) : LoadErr
  | targetErr (row : ℕ) : LoadErr
deriving DecidableEq, Repr

/-- The parsing loop of the regression `loadData`: all columns but the last
are features, the last column is the target.  (Filtered rows are never empty,
so `getLastD` only sees its real last element.) -/
def loadRows (pf : String → Option ℚ) : List (List String) → ℕ →
    Except LoadErr (List (List ℚ) × List ℚ)
  | [], _ => .ok ([], [])
  | row :: rows, i =>
      match parseFields pf row.dropLast 0 with
      | .error j => .error (.featureErr (i + 1) j)
      | .ok feats =>
          match pf (goTrim (row.getLastD "")) with
          | none => .error (.targetErr (i + 1))
          | some t =>
              (loadRows pf rows (i + 1)).map (fun p => (feats :: p.1, t :: p.2))

/-- Function `loadData` from `regration.go`, over the already-read CSV records. -/
def loadData (pf : String → Option ℚ) (records : List (List String)) :
    Except LoadErr TrainData :=
  if records.length < 2 then .error .notEnoughData
  else (loadRows pf (validRows records) 0).map (fun p => ⟨p.1, p.2⟩)

/-- Structure `LinearRegression` from `regration.go`. -/
structure LinearRegression where
  weights : List ℚ
  bias : ℚ
deriving DecidableEq, Repr

/-- The lowercase `predict` method: bias plus the dot product of the weights
with the features.  Go iterates over the weights and indexes the features, so
a feature vector shorter than the weights would panic; the `zipWith` model
instead ignores missing entries, and theorems assume equal lengths. -/
def predict (m : LinearRegression) (features : List ℚ) : ℚ :=
  m.bias + (List.zipWith (· * ·) m.weights features).sum

/-- The inner gradient loop `weightGrads[j] += error * feature` over one
sample's features. -/
def updateWG (wg feats : List ℚ) (err : ℚ) : List ℚ :=
  List.zipWith (fun g f => g + err * f) wg feats ++ wg.drop feats.length

/-- One epoch of `Fit`: accumulate weight and bias gradients over all samples,
then move weights and bias against the gradients scaled by
`learningRate / n`. -/
def epochStep (data : TrainData) (learningRate : ℚ) (m : LinearRegression) :
    LinearRegression :=
  let n : ℚ := (data.features.length : ℚ)
  let numFeatures := (data.features.headD []).length
  let acc := (data.features.zip data.targets).foldl
    (fun (a : List ℚ × ℚ) ft =>
      let err := predict m ft.1 - ft.2
      (updateWG a.1 ft.1 err, a.2 + err))
    (List.replicate numFeatures 0, 0)
  { weights := List.zipWith (fun w g => w - learningRate * g / n) m.weights acc.1,
    bias := m.bias - learningRate * acc.2 / n }

/-- Method `Fit` from `regration.go`: batch gradient descent.  On empty features the
receiver is returned unchanged; otherwise the weights are set to the values
drawn from `rand.Float64()*0.01 - 0.005` (modelled by `initW`), the bias to 0,
and `epochs` epochs of gradient steps are run. -/
def Fit (m : LinearRegression) (data : TrainData) (learningRate : ℚ)
    (epochs : ℕ) (initW : ℕ → ℚ) : LinearRegression :=
  if data.features = [] then m
  else
    Nat.iterate (epochStep data learningRate) epochs
      { weights := (List.range (data.features.headD []).length).map initW, bias := 0 }

/-- The spec's closed-form single-feature ordinary-least-squares formulas,
written from the spec sentence for comparison with `Fit`:
slope `(nΣxy − ΣxΣy) / (nΣx² − (Σx)²)`, intercept `(Σy − slope·Σx)/n`. -/
def specSimpleOLS (xs ys : List ℚ) : ℚ × ℚ :=
  let n : ℚ := (xs.length : ℚ)
  let sx := xs.sum
  let sy := ys.sum
  let sxy := (List.zipWith (· * ·) xs ys).sum
  let sxx := (xs.map (fun x => x * x)).sum
  let slope := (n * sxy - sx * sy) / (n * sxx - sx * sx)
  (slope, (sy - slope * sx) / n)

/-- Function `trainTestSplit` from `regration.go`: the global source is seeded with the
current time, index list `[0..n)` is shuffled, and the first
`int(float64(n) * trainRatio)` indices select the training rows.  `shuffled`
models `rand.Shuffle` applied to `[0..n)` under seed `now` (a permutation of
`List.range n` for a genuine source).  Go indexes `indices[i]` for
`i < trainSize` and would panic for a ratio above 1; the `take`/`drop` model
clamps instead, and the theorems only use ratios in (0,1), where both
agree. -/
def trainTestSplit (shuffled : ℤ → ℕ → List ℕ) (now : ℤ) (data : TrainData)
    (r : ℚ) : TrainData × TrainData :=
  let n := data.features.length
  let trainSize := (goTrunc ((n : ℚ) * r)).toNat
  let indices := shuffled now n
  (⟨(indices.take trainSize).map (fun idx => data.features.getD idx []),
    (indices.take trainSize).map (fun idx => data.targets.getD idx 0)⟩,
   ⟨(indices.drop trainSize).map (fun idx => data.features.getD idx []),
    (indices.drop trainSize).map (fun idx => data.targets.getD idx 0)⟩)

end Regression

namespace Classification

/-- The result quadruple of the classification `trainTestSplit`. -/
structure SplitData where
  trainX : List (List ℚ)
  trainY : List String
  testX : List (List ℚ)
  testY : List String
deriving DecidableEq, Repr

/-- Function `trainTestSplit` from `classification.go`: a local source with the fixed
seed 42 produces the permutation (`randPerm` models `rand.New(rand.NewSource
seed).Perm`), and the first `int(float64(n) * ratio)` permuted indices become
the training rows.  `now` is the ambient clock at call time; unlike the
regression splitter this function never reads it. -/
def trainTestSplit (randPerm : ℤ → ℕ → List ℕ) (now : ℤ) (X : List (List ℚ))
    (Y : List String) (r : ℚ) : SplitData :=
  let n := X.length
  let perm := randPerm 42 n
  let trainSize := (goTrunc ((n : ℚ) * r)).toNat
  { trainX := (perm.take trainSize).map (fun idx => X.getD idx []),
    trainY := (perm.take trainSize).map (fun idx => Y.getD idx ""),
    testX := (perm.drop trainSize).map (fun idx => X.getD idx []),
    testY := (perm.drop trainSize).map (fun idx => Y.getD idx "") }

/-- Function `euclideanDistance` from `classification.go`: NO length check is performed;
the loop ranges over `a` and indexes `b`, so a `b` shorter than `a` panics
(modelled as `none`) and a `b` longer than `a` silently ignores the extra
coordinates. -/
def euclideanDistance (s : ℚ → ℚ) (a b : List ℚ) : Option ℚ :=
  if b.length < a.length then none
  else some (s ((List.zipWith (fun x y => (x - y) * (x - y)) a b).sum))

/-- The per-neighbor record built inside `knnPredict`. -/
structure Neighbor where
  dist : ℚ
  label : String
deriving DecidableEq, Repr

/-- The neighbor list of one query point: the distance to every training row
paired with that row's label, in training order. -/
def neighborsOf (s : ℚ → ℚ) (trainX : List (List ℚ)) (trainY : List String)
    (x : List ℚ) : Option (List Neighbor) :=
  (trainX.zip trainY).mapM (fun tp =>
    (euclideanDistance s x tp.1).map (fun d => { dist := d, label := tp.2 }))

/-- The vote tally over the first `k` sorted neighbors, as the finite map
`label ↦ count` built by `votes[label]++`, listed as label/count pairs. -/
def tally (taken : List Neighbor) : List (String × ℕ) :=
  ((taken.map Neighbor.label).dedup).map
    (fun L => (L, (taken.map Neighbor.label).count L))

/-- The vote-selection loop: starting from `maxVotes = 0`, `chosen = ""`, take
an entry whenever its count strictly exceeds the current maximum. -/
def voteFold (entries : List (String × ℕ)) : String × ℕ :=
  entries.foldl (fun best e => if best.2 < e.2 then e else best) ("", 0)

/-- The postcondition Go's `sort.Slice` guarantees for the comparator
`neighbors[i].dist < neighbors[j].dist`: distances are nondecreasing.  The
library does not promise how equal-distance entries are ordered. -/
def sortedByDistance (ns : List Neighbor) : Prop :=
  ns.Pairwise (fun a b => a.dist ≤ b.dist)

/-- The body of `knnPredict` for one test point: sort the neighbor list by
distance (`sortFn` models `sort.Slice`, assumed in the theorems to return a
sorted permutation), count the votes of the first `k` entries, iterate the
vote map in some order (`orderFn` models Go's unspecified map iteration order,
assumed to be a permutation), and keep the strictly-highest count. -/
def knnPredictPoint (s : ℚ → ℚ) (sortFn : List Neighbor → List Neighbor)
    (orderFn : List (String × ℕ) → List (String × ℕ))
    (trainX : List (List ℚ)) (trainY : List String) (k : ℕ) (x : List ℚ) :
    Option String :=
  (neighborsOf s trainX trainY x).map (fun ns =>
    (voteFold (orderFn (tally ((sortFn ns).take k)))).1)

/-- Function `knnPredict` from `classification.go`, mapped over the test rows. -/
def knnPredict (s : ℚ → ℚ) (sortFn : List Neighbor → List Neighbor)
    (orderFn : List (String × ℕ) → List (String × ℕ))
    (trainX : List (List ℚ)) (trainY : List String) (testX : List (List ℚ))
    (k : ℕ) : Option (List String) :=
  testX.mapM (knnPredictPoint s sortFn orderFn trainX trainY k)

/-- The parsing loop of `loadCSV` from `classification.go`: rows with fewer
than five fields are skipped, the first four fields are parsed as floats, and
the fifth is kept as the label.  A parse failure aborts with the bare
`strconv` error (modelled as the offending trimmed string), with no row or
column information. -/
def loadCSVAux (pf : String → Option ℚ) : List (List String) →
    Except String (List (List ℚ) × List String)
  | [] => .ok ([], [])
  | row :: rows =>
      if row.length < 5 then loadCSVAux pf rows
      else
        match parseFields pf (row.take 4) 0 with
        | .error j => .error (goTrim (row.getD j ""))
        | .ok feats =>
            (loadCSVAux pf rows).map
              (fun p => (feats :: p.1, goTrim (row.getD 4 "") :: p.2))

/-- Function `loadCSV` from `classification.go`, over the already-read CSV records
(the first record is the header). -/
def loadCSV (pf : String → Option ℚ) (records : List (List String)) :
    Except String (List (List ℚ) × List String) :=
  loadCSVAux pf (records.drop 1)

end Classification

open List in
/-! ## General lemmas -/

/-- On nonnegative rationals Go's truncating conversion agrees with the floor. -/
theorem goTrunc_eq_floor (q : ℚ) (h : 0 ≤ q) : goTrunc q = ⌊q⌋ := by
  rw [goTrunc, Rat.floor_def, Int.tdiv_eq_ediv (Rat.num_nonneg.mpr h) (by positivity)]

/-- Reading a list back by indices `0, …, length-1` reproduces the list. -/
theorem map_getD_range {α : Type} (l : List α) (d : α) :
    (List.range l.length).map (fun i => l.getD i d) = l := by
  induction l with
  | nil => rfl
  | cons a t ih =>
      rw [List.length_cons, List.range_succ_eq_map, List.map_cons, List.map_map]
      exact congrArg (a :: ·) ih

/-- Reading a list along any permutation of its index range yields a
permutation of the list. -/
theorem perm_map_getD {α : Type} (l : List α) (perm : List ℕ) (d : α)
    (h : List.Perm perm (List.range l.length)) :
    List.Perm (perm.map (fun i => l.getD i d)) l := by
  have := h.map (fun i => l.getD i d)
  rwa [map_getD_range] at this

/-- The default value of `getLastD` is irrelevant for a non-empty list, whose
last element is a member. -/
theorem getLastD_mem {α : Type} (l : List α) (d : α) (h : l ≠ []) :
    l.getLastD d ∈ l := by
  induction l generalizing d with
  | nil => exact absurd rfl h
  | cons a t ih =>
      cases t with
      | nil => exact List.mem_singleton.mpr rfl
      | cons b u => exact List.mem_cons_of_mem a (ih b (by simp))

/-- A concatenation of strings is empty only if the first part is empty. -/
theorem append_eq_empty_left (s t : String) (h : s ++ t = "") : s = "" := by
  have hl : s.length + t.length = 0 := by
    have := congrArg String.length h
    rwa [String.length_append] at this
  have : s.length = 0 := Nat.eq_zero_of_add_eq_zero_right hl
  cases s with
  | mk data =>
      cases data with
      | nil => rfl
      | cons c cs => simp [String.length, String.Pos.isValid] at this

/-! ## Claim theorems: regression fit (C1), determinism (C10), sorting contract (C7) -/

/-- C1 (counterexample): `LinearRegression.Fit` does not produce the
closed-form ordinary-least-squares coefficients.  On the exact line
`y = 2x + 3` with `x = [0,1,2,3]`, `y = [3,5,7,9]`, the closed-form formulas
give slope 2 and intercept 3, but `Fit` (gradient descent from zero-valued
initial weights, learning rate 1/1000, one epoch) returns a different model. -/
theorem fit_not_closed_form_counterexample :
    Regression.specSimpleOLS [0, 1, 2, 3] [3, 5, 7, 9] = (2, 3) ∧
    Regression.Fit ⟨[], 0⟩ ⟨[[0], [1], [2], [3]], [3, 5, 7, 9]⟩ (1 / 1000) 1
      (fun _ => 0) ≠ { weights := [2], bias := 3 } := by
  constructor
  · norm_num [Regression.specSimpleOLS, List.zipWith, List.sum]
  · norm_num [Regression.Fit, Regression.epochStep, Regression.predict,
      Regression.updateWG, Nat.iterate, List.range_succ, List.zip, List.zipWith,
      List.foldl, List.replicate, List.sum]
    simp
    norm_num

/-- C1 (amended): `Fit` performs batch gradient descent, not the closed form.
With zero-initialized weights, learning rate 1/1000 and one epoch on
`x = [0,1,2,3]`, `y = [3,5,7,9]` it returns weight 23/2000 and bias 3/500,
while the spec's closed-form formulas evaluate to slope 2 and intercept 3 on
the same data. -/
theorem fit_gradient_descent_example :
    Regression.Fit ⟨[], 0⟩ ⟨[[0], [1], [2], [3]], [3, 5, 7, 9]⟩ (1 / 1000) 1
      (fun _ => 0) = { weights := [23 / 2000], bias := 3 / 500 } ∧
    Regression.specSimpleOLS [0, 1, 2, 3] [3, 5, 7, 9] = (2, 3) := by
  constructor
  · norm_num [Regression.Fit, Regression.epochStep, Regression.predict,
      Regression.updateWG, Nat.iterate, List.range_succ, List.zip, List.zipWith,
      List.foldl, List.replicate, List.sum]
    simp
  · norm_num [Regression.specSimpleOLS, List.zipWith, List.sum]

/-- C10: the classification `trainTestSplit` draws its permutation from a
local source with the fixed seed 42 and never reads the ambient clock, so two
runs at different times with the same features, labels and ratio produce
identical train/test partitions. -/
theorem trainTestSplit_fixed_seed_deterministic
    (randPerm : ℤ → ℕ → List ℕ) (now1 now2 : ℤ) (X : List (List ℚ))
    (Y : List String) (r : ℚ) :
    Classification.trainTestSplit randPerm now1 X Y r =
      Classification.trainTestSplit randPerm now2 X Y r := rfl

/-- C7: the postcondition that Go's `sort.Slice` guarantees for the comparator
`dist <` — a permutation of the input with nondecreasing distances — does not
determine the order of equal-distance neighbors: two different orders of the
same neighbor list are both sorted permutations of it.  (`sort.Slice` is
documented as not stable, so the spec's claim of a stable tie-break is not
justified by the code.) -/
theorem knn_sorted_tie_orders_not_unique :
    Classification.sortedByDistance
      [{ dist := 1, label := "A" }, { dist := 1, label := "B" }] ∧
    Classification.sortedByDistance
      [{ dist := 1, label := "B" }, { dist := 1, label := "A" }] ∧
    List.Perm
      ([{ dist := 1, label := "B" }, { dist := 1, label := "A" }] :
        List Classification.Neighbor)
      [{ dist := 1, label := "A" }, { dist := 1, label := "B" }] ∧
    ([{ dist := 1, label := "B" }, { dist := 1, label := "A" }] :
        List Classification.Neighbor) ≠
      [{ dist := 1, label := "A" }, { dist := 1, label := "B" }] := by
  refine ⟨?_, ?_, ?_, by decide⟩
  · simp [Classification.sortedByDistance]
  · simp [Classification.sortedByDistance]
  · decide

/-- C6 (counterexample): the classification package's `euclideanDistance`
performs no length check at all: with `a = []`, `b = [1]` (different lengths)
it returns the finite value 0 rather than positive infinity, and with
`a = [1,2]`, `b = [1]` it panics on an out-of-range index (modelled `none`).
The clustering `distance` by contrast does return `+Inf` on the same
mismatch. -/
theorem euclideanDistance_no_length_check_counterexample :
    Classification.euclideanDistance (fun q => q) [] [1] = some 0 ∧
    Classification.euclideanDistance (fun q => q) [1, 2] [1] = none ∧
    Clustering.distance (fun q => q) [] [1] = ⊤ := by
  refine ⟨by decide, by decide, by decide⟩

/-! ## The argmin property of findClosestCluster -/

/-- Unfolding `findAux` on a head that improves the running minimum. -/
theorem findAux_cons_lt (s : ℚ → ℚ) (point c : List ℚ) (cs : List (List ℚ))
    (minDist : WithTop ℚ) (best i : ℕ)
    (h : Clustering.distance s point c < minDist) :
    Clustering.findAux s point (c :: cs) minDist best i =
      Clustering.findAux s point cs (Clustering.distance s point c) i (i + 1) := by
  simp only [Clustering.findAux]
  rw [if_pos h]

/-- Unfolding `findAux` on a head that does not improve the running minimum. -/
theorem findAux_cons_ge (s : ℚ → ℚ) (point c : List ℚ) (cs : List (List ℚ))
    (minDist : WithTop ℚ) (best i : ℕ)
    (h : ¬Clustering.distance s point c < minDist) :
    Clustering.findAux s point (c :: cs) minDist best i =
      Clustering.findAux s point cs minDist best (i + 1) := by
  simp only [Clustering.findAux]
  rw [if_neg h]

/-- Characterization of the `findClosestCluster` loop: either no distance beats
the running minimum and the running best index is returned, or the returned
index points (relative to the current position `i`) at the first element
attaining the minimum, which beats the running minimum. -/
theorem findAux_spec (s : ℚ → ℚ) (point : List ℚ) :
    ∀ (cs : List (List ℚ)) (minDist : WithTop ℚ) (best i : ℕ),
      (Clustering.findAux s point cs minDist best i = best ∧
        ∀ m, m < cs.length → minDist ≤ Clustering.distance s point (cs.getD m [])) ∨
      (∃ m, m < cs.length ∧ Clustering.findAux s point cs minDist best i = i + m ∧
        Clustering.distance s point (cs.getD m []) < minDist ∧
        (∀ m', m' < cs.length →
          Clustering.distance s point (cs.getD m []) ≤
            Clustering.distance s point (cs.getD m' [])) ∧
        (∀ m', m' < m →
          Clustering.distance s point (cs.getD m []) <
            Clustering.distance s point (cs.getD m' []))) := by
  intro cs
  induction cs with
  | nil =>
      intro minDist best i
      left
      exact ⟨rfl, fun m hm => absurd hm (by simp)⟩
  | cons c cs ih =>
      intro minDist best i
      by_cases hd : Clustering.distance s point c < minDist
      · rcases ih (Clustering.distance s point c) i (i + 1) with
          ⟨heq, hall⟩ | ⟨m, hm, heq, hlt, hmin, hfirst⟩
        · right
          refine ⟨0, by simp, ?_, ?_, ?_, ?_⟩
          · rw [findAux_cons_lt s point c cs minDist best i hd, heq]
            omega
          · simpa using hd
          · intro m' hm'
            match m' with
            | 0 => simp
            | Nat.succ m'' =>
                simp only [List.getD_cons_zero, List.getD_cons_succ]
                exact hall m'' (by simp at hm'; omega)
          · intro m' hm'
            exact absurd hm' (by omega)
        · right
          refine ⟨m + 1, by simpa using hm, ?_, ?_, ?_, ?_⟩
          · rw [findAux_cons_lt s point c cs minDist best i hd, heq]
            omega
          · simp only [List.getD_cons_succ]
            exact lt_trans hlt hd
          · intro m' hm'
            match m' with
            | 0 =>
                simp only [List.getD_cons_succ, List.getD_cons_zero]
                exact le_of_lt hlt
            | Nat.succ m'' =>
                simp only [List.getD_cons_succ]
                exact hmin m'' (by simp at hm'; omega)
          · intro m' hm'
            match m' with
            | 0 => simp only [List.getD_cons_succ, List.getD_cons_zero]; exact hlt
            | Nat.succ m'' => simpa using hfirst m'' (by omega)
      · rcases ih minDist best (i + 1) with
          ⟨heq, hall⟩ | ⟨m, hm, heq, hlt, hmin, hfirst⟩
        · left
          refine ⟨by rw [findAux_cons_ge s point c cs minDist best i hd]; exact heq, ?_⟩
          intro m hm
          match m with
          | 0 => simpa using le_of_not_lt hd
          | Nat.succ m'' => simpa using hall m'' (by simpa using hm)
        · right
          refine ⟨m + 1, by simpa using hm, ?_, ?_, ?_, ?_⟩
          · rw [findAux_cons_ge s point c cs minDist best i hd, heq]
            omega
          · simpa using hlt
          · intro m' hm'
            match m' with
            | 0 =>
                simp only [List.getD_cons_succ, List.getD_cons_zero]
                exact le_of_lt (lt_of_lt_of_le hlt (le_of_not_lt hd))
            | Nat.succ m'' =>
                simp only [List.getD_cons_succ]
                exact hmin m'' (by simp at hm'; omega)
          · intro m' hm'
            match m' with
            | 0 =>
                simp only [List.getD_cons_succ, List.getD_cons_zero]
                exact lt_of_lt_of_le hlt (le_of_not_lt hd)
            | Nat.succ m'' => simpa using hfirst m'' (by omega)

/-- Function `findClosestCluster` on a non-empty centroid list returns a valid index
whose distance is minimal, and which is strictly smaller than the distance to
every earlier centroid (the first centroid wins exact ties). -/
theorem findClosestCluster_spec (s : ℚ → ℚ) (point : List ℚ)
    (cs : List (List ℚ)) (h : cs ≠ []) :
    Clustering.findClosestCluster s point cs < cs.length ∧
    (∀ m, m < cs.length →
      Clustering.distance s point
          (cs.getD (Clustering.findClosestCluster s point cs) []) ≤
        Clustering.distance s point (cs.getD m [])) ∧
    (∀ m, m < Clustering.findClosestCluster s point cs →
      Clustering.distance s point
          (cs.getD (Clustering.findClosestCluster s point cs) []) <
        Clustering.distance s point (cs.getD m [])) := by
  have hlen : 0 < cs.length := List.length_pos.mpr h
  rcases findAux_spec s point cs ⊤ 0 0 with
    ⟨heq, hall⟩ | ⟨m, hm, heq, _, hmin, hfirst⟩
  · have h0 : Clustering.findClosestCluster s point cs = 0 := heq
    refine ⟨by omega, ?_, ?_⟩
    · intro m hm
      have htop : Clustering.distance s point (cs.getD m []) = ⊤ :=
        top_le_iff.mp (hall m hm)
      rw [h0, htop]
      exact le_top
    · intro m hm
      rw [h0] at hm
      exact absurd hm (by omega)
  · have h0 : Clustering.findClosestCluster s point cs = m := by
      have := heq
      rwa [Nat.zero_add] at this
    rw [h0]
    exact ⟨hm, hmin, hfirst⟩

/-- C6 (amended): the clustering `distance` returns positive infinity on a
length mismatch, so a mismatched-length centroid is never the chosen minimum
in `findClosestCluster` whenever some centroid of matching length exists; the
classification `euclideanDistance` instead performs no length check: it is
defined (finite) exactly when the first argument is no longer than the second,
and panics otherwise. -/
theorem distance_mismatch_infinity (s : ℚ → ℚ) :
    (∀ p q : List ℚ, p.length ≠ q.length → Clustering.distance s p q = ⊤) ∧
    (∀ (p : List ℚ) (cents : List (List ℚ)) (j : ℕ), j < cents.length →
      (cents.getD j []).length = p.length →
      Clustering.distance s p
        (cents.getD (Clustering.findClosestCluster s p cents) []) ≠ ⊤) ∧
    (∀ a b : List ℚ,
      (Classification.euclideanDistance s a b).isSome ↔ a.length ≤ b.length) := by
  refine ⟨?_, ?_, ?_⟩
  · intro p q hpq
    simp [Clustering.distance, hpq]
  · intro p cents j hj hmatch
    have hne : cents ≠ [] := List.ne_nil_of_length_pos (by omega)
    have hspec := findClosestCluster_spec s p cents hne
    have hfin : Clustering.distance s p (cents.getD j []) < ⊤ := by
      rw [Clustering.distance, if_neg (by omega)]
      exact WithTop.coe_lt_top _
    exact ne_top_of_lt (lt_of_le_of_lt (hspec.2.1 j hj) hfin)
  · intro a b
    rw [Classification.euclideanDistance]
    by_cases hab : b.length < a.length
    · rw [if_pos hab]
      simp
      omega
    · rw [if_neg hab]
      simp
      omega

/-- C6 witness: querying `[0]` against centroids `[[1,2],[3]]` (the first of
mismatched length, the second matching), the chosen centroid's distance is
finite. -/
theorem distance_mismatch_infinity_witness :
    (1 : ℕ) < ([[1, 2], [3]] : List (List ℚ)).length ∧
    (([[1, 2], [3]] : List (List ℚ)).getD 1 []).length = ([0] : List ℚ).length ∧
    Clustering.distance (fun q => q) [0]
      (([[1, 2], [3]] : List (List ℚ)).getD
        (Clustering.findClosestCluster (fun q => q) [0] [[1, 2], [3]]) []) ≠ ⊤ :=
  ⟨by decide, by decide,
    (distance_mismatch_infinity (fun q => q)).2.1 [0] [[1, 2], [3]] 1
      (by decide) (by decide)⟩

/-! ## Claim: the train/test split partitions the dataset (C2) -/

/-- Splitting any list along a permutation of its index range at any cut
reassembles to a permutation of the list. -/
theorem split_core {α : Type} (l : List α) (perm : List ℕ) (d : α) (ts : ℕ)
    (hp : List.Perm perm (List.range l.length)) :
    List.Perm ((perm.take ts).map (fun idx => l.getD idx d) ++
      (perm.drop ts).map (fun idx => l.getD idx d)) l := by
  rw [← List.map_append, List.take_append_drop]
  exact perm_map_getD l perm d hp

/-- C2: for both splitters (classification with its fixed-seed permutation,
regression with its time-seeded shuffle, each assumed to produce a permutation
of the index range, which is the contract of `rand.Perm`/`rand.Shuffle`), and
any ratio in (0,1): the train part has exactly `⌊N·r⌋` rows, train and test
sizes add up to `N`, and train and test together are a permutation of the
original rows (and of the original labels/targets), so nothing is duplicated
or dropped. -/
theorem trainTestSplit_partition :
    (∀ (randPerm : ℤ → ℕ → List ℕ) (now : ℤ) (X : List (List ℚ))
        (Y : List String) (r : ℚ),
      0 < r → r < 1 →
      List.Perm (randPerm 42 X.length) (List.range X.length) →
      Y.length = X.length →
      (((Classification.trainTestSplit randPerm now X Y r).trainX.length : ℤ) =
          ⌊(X.length : ℚ) * r⌋ ∧
        (Classification.trainTestSplit randPerm now X Y r).trainX.length +
          (Classification.trainTestSplit randPerm now X Y r).testX.length =
            X.length ∧
        List.Perm ((Classification.trainTestSplit randPerm now X Y r).trainX ++
          (Classification.trainTestSplit randPerm now X Y r).testX) X ∧
        List.Perm ((Classification.trainTestSplit randPerm now X Y r).trainY ++
          (Classification.trainTestSplit randPerm now X Y r).testY) Y)) ∧
    (∀ (shuffled : ℤ → ℕ → List ℕ) (now : ℤ) (d : Regression.TrainData) (r : ℚ),
      0 < r → r < 1 →
      List.Perm (shuffled now d.features.length)
        (List.range d.features.length) →
      d.targets.length = d.features.length →
      (((Regression.trainTestSplit shuffled now d r).1.features.length : ℤ) =
          ⌊(d.features.length : ℚ) * r⌋ ∧
        (Regression.trainTestSplit shuffled now d r).1.features.length +
          (Regression.trainTestSplit shuffled now d r).2.features.length =
            d.features.length ∧
        List.Perm ((Regression.trainTestSplit shuffled now d r).1.features ++
          (Regression.trainTestSplit shuffled now d r).2.features) d.features ∧
        List.Perm ((Regression.trainTestSplit shuffled now d r).1.targets ++
          (Regression.trainTestSplit shuffled now d r).2.targets) d.targets)) := by
  constructor
  · intro randPerm now X Y r hr0 hr1 hp hY
    set n := X.length with hn
    have h0 : (0 : ℚ) ≤ (n : ℚ) * r := by positivity
    have hts : goTrunc ((n : ℚ) * r) = ⌊(n : ℚ) * r⌋ := goTrunc_eq_floor _ h0
    have hfl : ⌊(n : ℚ) * r⌋ ≤ (n : ℤ) := by
      have : (n : ℚ) * r ≤ (n : ℚ) := by
        calc (n : ℚ) * r ≤ (n : ℚ) * 1 :=
              mul_le_mul_of_nonneg_left (le_of_lt hr1) (by positivity)
          _ = (n : ℚ) := mul_one _
      calc ⌊(n : ℚ) * r⌋ ≤ ⌊(n : ℚ)⌋ := Int.floor_mono this
        _ = (n : ℤ) := Int.floor_natCast n
    have htsle : (goTrunc ((n : ℚ) * r)).toNat ≤ n := by
      rw [hts]
      omega
    have hplen : (randPerm 42 n).length = n := by
      rw [hp.length_eq, List.length_range]
    refine ⟨?_, ?_, ?_, ?_⟩
    · show ((((randPerm 42 n).take _).map _).length : ℤ) = _
      rw [List.length_map, List.length_take, hplen,
        Nat.min_eq_left htsle, hts, Int.toNat_of_nonneg (Int.floor_nonneg.mpr h0)]
    · show (((randPerm 42 n).take _).map _).length +
          (((randPerm 42 n).drop _).map _).length = n
      rw [List.length_map, List.length_map, List.length_take, List.length_drop,
        hplen]
      omega
    · exact split_core X (randPerm 42 n) [] _ hp
    · exact split_core Y (randPerm 42 n) "" _ (by rw [hY]; exact hp)
  · intro shuffled now d r hr0 hr1 hp hY
    set n := d.features.length with hn
    have h0 : (0 : ℚ) ≤ (n : ℚ) * r := by positivity
    have hts : goTrunc ((n : ℚ) * r) = ⌊(n : ℚ) * r⌋ := goTrunc_eq_floor _ h0
    have hfl : ⌊(n : ℚ) * r⌋ ≤ (n : ℤ) := by
      have : (n : ℚ) * r ≤ (n : ℚ) := by
        calc (n : ℚ) * r ≤ (n : ℚ) * 1 :=
              mul_le_mul_of_nonneg_left (le_of_lt hr1) (by positivity)
          _ = (n : ℚ) := mul_one _
      calc ⌊(n : ℚ) * r⌋ ≤ ⌊(n : ℚ)⌋ := Int.floor_mono this
        _ = (n : ℤ) := Int.floor_natCast n
    have htsle : (goTrunc ((n : ℚ) * r)).toNat ≤ n := by
      rw [hts]
      omega
    have hplen : (shuffled now n).length = n := by
      rw [hp.length_eq, List.length_range]
    refine ⟨?_, ?_, ?_, ?_⟩
    · show ((((shuffled now n).take _).map _).length : ℤ) = _
      rw [List.length_map, List.length_take, hplen,
        Nat.min_eq_left htsle, hts, Int.toNat_of_nonneg (Int.floor_nonneg.mpr h0)]
    · show (((shuffled now n).take _).map _).length +
          (((shuffled now n).drop _).map _).length = n
      rw [List.length_map, List.length_map, List.length_take, List.length_drop,
        hplen]
      omega
    · exact split_core d.features (shuffled now n) [] _ hp
    · exact split_core d.targets (shuffled now n) 0 _ (by rw [hY]; exact hp)

/-- C2 witness: the identity permutation on three rows with ratio 1/2 gives a
train/test pair that together permute the rows. -/
theorem trainTestSplit_partition_witness :
    List.Perm ((Classification.trainTestSplit (fun _ n => List.range n) 0
        [[1], [2], [3]] ["a", "b", "c"] (1 / 2)).trainX ++
      (Classification.trainTestSplit (fun _ n => List.range n) 0
        [[1], [2], [3]] ["a", "b", "c"] (1 / 2)).testX) [[1], [2], [3]] :=
  (trainTestSplit_partition.1 (fun _ n => List.range n) 0 [[1], [2], [3]]
    ["a", "b", "c"] (1 / 2) (by norm_num) (by norm_num) (List.Perm.refl _)
    (by decide)).2.2.1

/-! ## Claim: KNN majority vote (C3) -/

/-- The vote-selection fold keeps its accumulator when no entry strictly
exceeds it. -/
theorem foldl_vote_keep :
    ∀ (entries : List (String × ℕ)) (b : String × ℕ),
      (∀ e ∈ entries, e.2 ≤ b.2) →
      entries.foldl (fun best e => if best.2 < e.2 then e else best) b = b := by
  intro entries
  induction entries with
  | nil => intro b _; rfl
  | cons e rest ih =>
      intro b h
      rw [List.foldl_cons, if_neg (not_lt.mpr (h e (List.mem_cons_self e rest)))]
      exact ih b (fun e' he' => h e' (List.mem_cons_of_mem e he'))

/-- The vote-selection fold returns the unique strict maximum, whatever the
iteration order of the entries. -/
theorem foldl_vote_max :
    ∀ (entries : List (String × ℕ)) (L : String) (c : ℕ) (b : String × ℕ),
      b.2 < c → (L, c) ∈ entries →
      (∀ e ∈ entries, e.1 ≠ L → e.2 < c) →
      (∀ e ∈ entries, e.1 = L → e.2 = c) →
      entries.foldl (fun best e => if best.2 < e.2 then e else best) b = (L, c) := by
  intro entries
  induction entries with
  | nil => intro L c b _ hmem _ _; exact absurd hmem (List.not_mem_nil _)
  | cons e rest ih =>
      intro L c b hb hmem hlt heq
      rw [List.foldl_cons]
      by_cases hL : e.1 = L
      · have he2 : e.2 = c := heq e (List.mem_cons_self e rest) hL
        have heL : e = (L, c) := Prod.ext_iff.mpr ⟨hL, he2⟩
        rw [if_pos (by rw [he2]; exact hb), heL]
        apply foldl_vote_keep
        intro e' he'
        by_cases hL' : e'.1 = L
        · exact le_of_eq (heq e' (List.mem_cons_of_mem e he') hL')
        · exact le_of_lt (hlt e' (List.mem_cons_of_mem e he') hL')
      · have he2 : e.2 < c := hlt e (List.mem_cons_self e rest) hL
        have hmem' : (L, c) ∈ rest := by
          rcases List.mem_cons.mp hmem with h | h
          · exact absurd (congrArg Prod.fst h).symm hL
          · exact h
        have hlt' := fun e' he' => hlt e' (List.mem_cons_of_mem e he')
        have heq' := fun e' he' => heq e' (List.mem_cons_of_mem e he')
        by_cases hbe : b.2 < e.2
        · rw [if_pos hbe]
          exact ih L c e he2 hmem' hlt' heq'
        · rw [if_neg hbe]
          exact ih L c b hb hmem' hlt' heq'

/-- Every tally entry records the vote count of its label. -/
theorem tally_mem_count (taken : List Classification.Neighbor) (e : String × ℕ)
    (h : e ∈ Classification.tally taken) :
    e.2 = (taken.map Classification.Neighbor.label).count e.1 := by
  rcases List.mem_map.mp h with ⟨M, _, rfl⟩
  rfl

/-- Every label with a positive vote count appears in the tally with exactly
that count. -/
theorem tally_mem_of_pos (taken : List Classification.Neighbor) (L : String)
    (h : 0 < (taken.map Classification.Neighbor.label).count L) :
    (L, (taken.map Classification.Neighbor.label).count L) ∈
      Classification.tally taken :=
  List.mem_map.mpr
    ⟨L, List.mem_dedup.mpr (List.count_pos_iff.mp h), rfl⟩

/-- C3: for any sorted permutation produced by `sort.Slice` and any map
iteration order, `knnPredict` for one query considers exactly the first
`min k N` sorted neighbors — all at distance at most that of every unconsidered
neighbor — and whenever some label's vote count among them strictly exceeds
every other label's, that label is returned. -/
theorem knnPredict_majority (s : ℚ → ℚ)
    (sortFn : List Classification.Neighbor → List Classification.Neighbor)
    (orderFn : List (String × ℕ) → List (String × ℕ))
    (trainX : List (List ℚ)) (trainY : List String) (k : ℕ) (x : List ℚ)
    (ns : List Classification.Neighbor) (L : String)
    (hns : Classification.neighborsOf s trainX trainY x = some ns)
    (hperm : List.Perm (sortFn ns) ns)
    (hsorted : Classification.sortedByDistance (sortFn ns))
    (horder : List.Perm (orderFn (Classification.tally ((sortFn ns).take k)))
      (Classification.tally ((sortFn ns).take k)))
    (hpos : 0 < (((sortFn ns).take k).map Classification.Neighbor.label).count L)
    (hmaj : ∀ M, M ≠ L →
      (((sortFn ns).take k).map Classification.Neighbor.label).count M <
        (((sortFn ns).take k).map Classification.Neighbor.label).count L) :
    Classification.knnPredictPoint s sortFn orderFn trainX trainY k x = some L ∧
    ((sortFn ns).take k).length = min k ns.length ∧
    (∀ a ∈ (sortFn ns).take k, ∀ b ∈ (sortFn ns).drop k, a.dist ≤ b.dist) := by
  refine ⟨?_, ?_, ?_⟩
  · rw [Classification.knnPredictPoint, hns, Option.map_some']
    have hfold : Classification.voteFold
        (orderFn (Classification.tally ((sortFn ns).take k))) =
        (L, (((sortFn ns).take k).map Classification.Neighbor.label).count L) := by
      rw [Classification.voteFold]
      apply foldl_vote_max
      · exact hpos
      · exact horder.mem_iff.mpr (tally_mem_of_pos _ L hpos)
      · intro e he hne
        rw [tally_mem_count _ e (horder.mem_iff.mp he)]
        exact hmaj e.1 hne
      · intro e he heL
        rw [tally_mem_count _ e (horder.mem_iff.mp he), heL]
    rw [hfold]
  · rw [List.length_take, hperm.length_eq]
  · have h := hsorted
    rw [Classification.sortedByDistance,
      ← List.take_append_drop k (sortFn ns)] at h
    exact (List.pairwise_append.mp h).2.2

/-- C3 witness: three training rows labelled A, A, B, query `[0]`, `k = 3`
(the square-root model collapses every distance to 0, so all orders are
sorted): label A has the strict majority and is predicted. -/
theorem knnPredict_majority_witness :
    Classification.neighborsOf (fun _ => 0) [[0], [1], [5]] ["A", "A", "B"] [0] =
      some [{ dist := 0, label := "A" }, { dist := 0, label := "A" },
        { dist := 0, label := "B" }] ∧
    Classification.knnPredictPoint (fun _ => 0) id id [[0], [1], [5]]
      ["A", "A", "B"] 3 [0] = some "A" := by
  refine ⟨by decide, ?_⟩
  refine (knnPredict_majority (fun _ => 0) id id [[0], [1], [5]] ["A", "A", "B"]
    3 [0] [{ dist := 0, label := "A" }, { dist := 0, label := "A" },
      { dist := 0, label := "B" }] "A" (by decide) (List.Perm.refl _)
    (by simp [Classification.sortedByDistance]) (List.Perm.refl _) (by decide)
    ?_).1
  intro M hM
  show (["A", "A", "B"] : List String).count M <
    (["A", "A", "B"] : List String).count "A"
  simp only [List.count_cons, List.count_nil, hM, if_false]
  split_ifs <;> simp_all

/-! ## Claim: k-means assigns every point to its nearest centroid (C4) -/

/-- Appending a point to one cluster leaves every centroid unchanged. -/
theorem appendAt_centroids :
    ∀ (cs : List Clustering.Cluster) (n : ℕ) (p : List ℚ),
      (Clustering.appendAt cs n p).map Clustering.Cluster.centroid =
        cs.map Clustering.Cluster.centroid := by
  intro cs
  induction cs with
  | nil => intro n p; rfl
  | cons c cs ih =>
      intro n p
      match n with
      | 0 => rfl
      | Nat.succ m =>
          simp only [Clustering.appendAt, List.map_cons]
          rw [ih m p]

/-- Appending a point to one cluster preserves the number of clusters. -/
theorem appendAt_length :
    ∀ (cs : List Clustering.Cluster) (n : ℕ) (p : List ℚ),
      (Clustering.appendAt cs n p).length = cs.length := by
  intro cs
  induction cs with
  | nil => intro n p; rfl
  | cons c cs ih =>
      intro n p
      match n with
      | 0 => rfl
      | Nat.succ m =>
          simp only [Clustering.appendAt, List.length_cons]
          rw [ih m p]

/-- The point lists after `appendAt`: the addressed cluster (when the index is
in range) gains the point at the end, all others are unchanged. -/
theorem appendAt_points :
    ∀ (cs : List Clustering.Cluster) (n : ℕ) (p : List ℚ) (i : ℕ),
      ((Clustering.appendAt cs n p).getD i ⟨[], []⟩).points =
        if i = n ∧ n < cs.length then (cs.getD i ⟨[], []⟩).points ++ [p]
        else (cs.getD i ⟨[], []⟩).points := by
  intro cs
  induction cs with
  | nil =>
      intro n p i
      rw [if_neg (by simp)]
      rfl
  | cons c cs ih =>
      intro n p i
      match n, i with
      | 0, 0 =>
          rw [if_pos ⟨rfl, by simp⟩]
          rfl
      | 0, Nat.succ j =>
          rw [if_neg (by omega)]
          rfl
      | Nat.succ m, 0 =>
          rw [if_neg (by omega)]
          rfl
      | Nat.succ m, Nat.succ j =>
          simp only [Clustering.appendAt, List.getD_cons_succ, List.length_cons]
          rw [ih m p j]
          by_cases h : j = m ∧ m < cs.length
          · rw [if_pos h, if_pos (by omega)]
          · rw [if_neg h, if_neg (by omega)]

/-- Appending a point at an in-range index grows the total point count by
one. -/
theorem appendAt_sum :
    ∀ (cs : List Clustering.Cluster) (n : ℕ) (p : List ℚ), n < cs.length →
      ((Clustering.appendAt cs n p).map (fun c => c.points.length)).sum =
        (cs.map (fun c => c.points.length)).sum + 1 := by
  intro cs
  induction cs with
  | nil => intro n p h; exact absurd h (by simp)
  | cons c cs ih =>
      intro n p h
      match n with
      | 0 =>
          simp only [Clustering.appendAt, List.map_cons, List.sum_cons,
            List.length_append, List.length_singleton]
          omega
      | Nat.succ m =>
          simp only [Clustering.appendAt, List.map_cons, List.sum_cons]
          rw [ih m p (by simp at h; omega)]
          omega

/-- Invariant of the assignment fold of `kmeans`: the centroids are untouched,
each cluster accumulates (in input order) exactly the data points whose
closest centroid it is, and the total point count grows by the number of data
points. -/
theorem assign_fold (s : ℚ → ℚ) (cents : List (List ℚ)) (hne : cents ≠ []) :
    ∀ (data : List (List ℚ)) (acc : List Clustering.Cluster),
      acc.map Clustering.Cluster.centroid = cents →
      ((data.foldl (fun cl p =>
          Clustering.appendAt cl (Clustering.findClosestCluster s p cents) p)
          acc).map Clustering.Cluster.centroid = cents ∧
        (∀ i, ((data.foldl (fun cl p =>
            Clustering.appendAt cl (Clustering.findClosestCluster s p cents) p)
            acc).getD i ⟨[], []⟩).points =
          (acc.getD i ⟨[], []⟩).points ++
            data.filter (fun p =>
              Clustering.findClosestCluster s p cents == i)) ∧
        ((data.foldl (fun cl p =>
            Clustering.appendAt cl (Clustering.findClosestCluster s p cents) p)
            acc).map (fun c => c.points.length)).sum =
          (acc.map (fun c => c.points.length)).sum + data.length) := by
  intro data
  induction data with
  | nil =>
      intro acc hacc
      exact ⟨hacc, fun i => by simp, by simp⟩
  | cons p data ih =>
      intro acc hacc
      have hlenacc : acc.length = cents.length := by
        rw [← hacc, List.length_map]
      have hj : Clustering.findClosestCluster s p cents < acc.length := by
        rw [hlenacc]
        exact (findClosestCluster_spec s p cents hne).1
      have hacc' : (Clustering.appendAt acc
          (Clustering.findClosestCluster s p cents) p).map
          Clustering.Cluster.centroid = cents := by
        rw [appendAt_centroids]
        exact hacc
      obtain ⟨h1, h2, h3⟩ := ih
        (Clustering.appendAt acc (Clustering.findClosestCluster s p cents) p)
        hacc'
      rw [List.foldl_cons]
      refine ⟨h1, ?_, ?_⟩
      · intro i
        rw [h2 i, appendAt_points]
        by_cases hij : i = Clustering.findClosestCluster s p cents
        · rw [if_pos ⟨hij, by omega⟩, List.filter_cons,
            if_pos (by simp [hij]), List.append_assoc, List.singleton_append]
        · rw [if_neg (by omega), List.filter_cons,
            if_neg (by simpa using fun hc => hij hc.symm)]
      · rw [h3, appendAt_sum acc _ p hj, List.length_cons]
        omega

/-- The number of clusters produced by the assignment pass equals the number
of centroids. -/
theorem assignPoints_length (s : ℚ → ℚ) (cents : List (List ℚ))
    (data : List (List ℚ)) :
    (Clustering.assignPoints s cents data).length = cents.length := by
  rw [Clustering.assignPoints]
  have : ∀ (l : List (List ℚ)) (acc : List Clustering.Cluster),
      (l.foldl (fun cl p =>
        Clustering.appendAt cl (Clustering.findClosestCluster s p cents) p)
        acc).length = acc.length := by
    intro l
    induction l with
    | nil => intro acc; rfl
    | cons p l ih =>
        intro acc
        rw [List.foldl_cons, ih, appendAt_length]
  rw [this, List.length_map]

/-- The assignment pass keeps the given centroids and fills each cluster with
exactly the data points (in order) whose nearest centroid it is; the cluster
sizes sum to the number of data points. -/
theorem assignPoints_spec (s : ℚ → ℚ) (cents : List (List ℚ))
    (data : List (List ℚ)) (hne : cents ≠ []) :
    (Clustering.assignPoints s cents data).map Clustering.Cluster.centroid =
      cents ∧
    (∀ i, ((Clustering.assignPoints s cents data).getD i ⟨[], []⟩).points =
      data.filter (fun p => Clustering.findClosestCluster s p cents == i)) ∧
    ((Clustering.assignPoints s cents data).map
      (fun c => c.points.length)).sum = data.length := by
  have hbase : ∀ l : List (List ℚ), (l.map (fun c =>
      ({ centroid := c, points := [] } : Clustering.Cluster))).map
      Clustering.Cluster.centroid = l := by
    intro l
    induction l with
    | nil => rfl
    | cons a t ih => simpa using ih
  obtain ⟨h1, h2, h3⟩ := assign_fold s cents hne data _ (hbase cents)
  refine ⟨h1, fun i => ?_, ?_⟩
  · rw [Clustering.assignPoints, h2 i]
    have hzero : ((cents.map (fun c =>
        ({ centroid := c, points := [] } : Clustering.Cluster))).getD i
        ⟨[], []⟩).points = [] := by
      by_cases hi : i < cents.length
      · rw [List.getD_eq_getElem _ _ (by simpa using hi), List.getElem_map]
      · rw [List.getD_eq_default _ _ (by simpa using hi)]
    rw [hzero, List.nil_append]
  · rw [Clustering.assignPoints, h3]
    have hzero : ∀ l : List (List ℚ), ((l.map (fun c =>
        ({ centroid := c, points := [] } : Clustering.Cluster))).map
        (fun c => c.points.length)).sum = 0 := by
      intro l
      induction l with
      | nil => rfl
      | cons a t ih => simpa using ih
    rw [hzero]
    omega

/-- The centroid-update loop returns as many centroids as it is given (the
loop runs over the clusters, which always match the centroids in number). -/
theorem updateStep_length (s : ℚ → ℚ) :
    ∀ (cl : List Clustering.Cluster) (cents : List (List ℚ)),
      (Clustering.updateStep s cl cents).1.length =
        min cl.length cents.length := by
  intro cl
  induction cl with
  | nil => intro cents; simp [Clustering.updateStep]
  | cons c cl ih =>
      intro cents
      match cents with
      | [] => simp [Clustering.updateStep]
      | cent :: cents =>
          simp only [Clustering.updateStep]
          by_cases h : 0 < c.points.length
          · rw [if_pos h]
            simp only [List.length_cons]
            rw [ih cents]
            omega
          · rw [if_neg h]
            simp only [List.length_cons]
            rw [ih cents]
            omega

/-- Whatever path the `kmeans` iteration takes, the returned clustering is an
assignment pass over some centroid list of the same length as the initial
one. -/
theorem kmeansLoop_shape (s : ℚ → ℚ) (data : List (List ℚ)) :
    ∀ (fuel : ℕ) (cents : List (List ℚ)),
      ∃ cents', Clustering.kmeansLoop s data fuel cents =
        Clustering.assignPoints s cents' data ∧
        cents'.length = cents.length := by
  intro fuel
  induction fuel with
  | zero => intro cents; exact ⟨cents, rfl, rfl⟩
  | succ fuel ih =>
      intro cents
      by_cases hc : (Clustering.updateStep s
          (Clustering.assignPoints s cents data) cents).2 = true
      · refine ⟨cents, ?_, rfl⟩
        simp only [Clustering.kmeansLoop]
        rw [if_pos hc]
      · obtain ⟨cents', heq, hlen⟩ := ih (Clustering.updateStep s
          (Clustering.assignPoints s cents data) cents).1
        refine ⟨cents', ?_, ?_⟩
        · simp only [Clustering.kmeansLoop]
          rw [if_neg hc]
          exact heq
        · rw [hlen, updateStep_length, assignPoints_length]
          omega

/-- C4: whenever `kmeans` returns a clustering — via the convergence check or
via the iteration cap — every cluster holds exactly the input points (in input
order) whose nearest returned centroid it is; the iteration-cap exit is one
additional assignment pass with the final centroids; and `findClosestCluster`
returns the least index attaining the minimal distance, so the first centroid
wins exact ties. -/
theorem kmeans_assignment_nearest (s : ℚ → ℚ) (picks : ℕ → ℕ)
    (data : List (List ℚ)) (k : ℤ) (m : ℕ) (cs : List Clustering.Cluster)
    (h : Clustering.kmeans s picks data k m = some cs) :
    (∀ i, (cs.getD i ⟨[], []⟩).points =
      data.filter (fun p =>
        Clustering.findClosestCluster s p
          (cs.map Clustering.Cluster.centroid) == i)) ∧
    (∀ cents, Clustering.kmeansLoop s data 0 cents =
      Clustering.assignPoints s cents data) ∧
    (∀ (p : List ℚ) (cents : List (List ℚ)), cents ≠ [] →
      Clustering.findClosestCluster s p cents < cents.length ∧
      (∀ j, j < cents.length →
        Clustering.distance s p
            (cents.getD (Clustering.findClosestCluster s p cents) []) ≤
          Clustering.distance s p (cents.getD j [])) ∧
      (∀ j, j < Clustering.findClosestCluster s p cents →
        Clustering.distance s p
            (cents.getD (Clustering.findClosestCluster s p cents) []) <
          Clustering.distance s p (cents.getD j []))) := by
  rw [Clustering.kmeans] at h
  by_cases hg : data.length = 0 ∨ k ≤ 0
  · rw [if_pos hg] at h
    exact absurd h (by simp)
  · rw [if_neg hg] at h
    have hcs : cs = Clustering.kmeansLoop s data m
        ((List.range k.toNat).map (fun i => data.getD (picks i) [])) :=
      (Option.some_inj.mp h).symm
    obtain ⟨cents', heq, hlen⟩ := kmeansLoop_shape s data m
      ((List.range k.toNat).map (fun i => data.getD (picks i) []))
    have hk : 0 < k := by
      push_neg at hg
      omega
    have hlen' : cents'.length = k.toNat := by
      rw [hlen, List.length_map, List.length_range]
    have hne : cents' ≠ [] := by
      intro hnil
      rw [hnil] at hlen'
      simp at hlen'
      omega
    obtain ⟨h1, h2, _⟩ := assignPoints_spec s cents' data hne
    refine ⟨?_, fun cents => rfl,
      fun p cents hne' => findClosestCluster_spec s p cents hne'⟩
    intro i
    rw [hcs, heq, h1]
    exact h2 i

/-- C4 witness: two points `[0]`, `[10]`, `k = 2`, iteration cap 0 (with the
square-root model collapsing every distance, both points tie and go to the
first cluster): the first cluster's points are exactly the points whose
nearest returned centroid has index 0. -/
theorem kmeans_assignment_nearest_witness :
    (([{ centroid := [0], points := [[0], [10]] },
        { centroid := [10], points := [] }] : List Clustering.Cluster).getD 0
      ⟨[], []⟩).points =
      ([[0], [10]] : List (List ℚ)).filter (fun p =>
        Clustering.findClosestCluster (fun _ => 0) p
          (([{ centroid := [0], points := [[0], [10]] },
             { centroid := [10], points := [] }] :
            List Clustering.Cluster).map Clustering.Cluster.centroid) == 0) :=
  (kmeans_assignment_nearest (fun _ => 0) id [[0], [10]] 2 0
    [{ centroid := [0], points := [[0], [10]] },
     { centroid := [10], points := [] }] (by decide)).1 0

/-! ## Claim: the update step replaces centroids by coordinate means (C5) -/

/-- Function `addInto` never changes the accumulator's length. -/
theorem addInto_length (z p : List ℚ) :
    (Clustering.addInto z p).length = z.length := by
  rw [Clustering.addInto, List.length_append, List.length_zipWith,
    List.length_drop]
  omega

/-- On an equal-length point, `addInto` adds coordinate-wise. -/
theorem addInto_getD (z p : List ℚ) (hp : p.length = z.length) (i : ℕ)
    (hi : i < z.length) :
    (Clustering.addInto z p).getD i 0 = z.getD i 0 + p.getD i 0 := by
  rw [Clustering.addInto, hp, List.drop_length, List.append_nil,
    List.getD_eq_getElem _ _ (by rw [List.length_zipWith]; omega),
    List.getD_eq_getElem _ _ hi, List.getD_eq_getElem _ _ (by omega),
    List.getElem_zipWith]

/-- Folding `addInto` preserves the accumulator's length. -/
theorem foldl_addInto_length :
    ∀ (pts : List (List ℚ)) (z : List ℚ),
      (pts.foldl Clustering.addInto z).length = z.length := by
  intro pts
  induction pts with
  | nil => intro z; rfl
  | cons p pts ih =>
      intro z
      rw [List.foldl_cons, ih, addInto_length]

/-- Folding `addInto` over equal-length points accumulates the coordinate-wise
sums. -/
theorem foldl_addInto_getD :
    ∀ (pts : List (List ℚ)) (z : List ℚ),
      (∀ p ∈ pts, p.length = z.length) → ∀ i, i < z.length →
      (pts.foldl Clustering.addInto z).getD i 0 =
        z.getD i 0 + (pts.map (fun p => p.getD i 0)).sum := by
  intro pts
  induction pts with
  | nil => intro z _ i _; simp
  | cons p pts ih =>
      intro z hd i hi
      rw [List.foldl_cons]
      have hp := hd p (List.mem_cons_self p pts)
      have hlen : (Clustering.addInto z p).length = z.length := addInto_length z p
      rw [ih (Clustering.addInto z p)
        (fun q hq => by rw [hlen]; exact hd q (List.mem_cons_of_mem p hq)) i
        (by rw [hlen]; exact hi)]
      rw [addInto_getD z p hp i hi, List.map_cons, List.sum_cons]
      ring

/-- Reading a mapped division at any index commutes with the division. -/
theorem getD_map_div (l : List ℚ) (n : ℚ) (i : ℕ) :
    (l.map (fun x => x / n)).getD i 0 = l.getD i 0 / n := by
  by_cases hi : i < l.length
  · rw [List.getD_eq_getElem _ _ (by simpa using hi),
      List.getD_eq_getElem _ _ hi, List.getElem_map]
  · rw [List.getD_eq_default _ _ (by simpa using hi),
      List.getD_eq_default _ _ (by simpa using hi), zero_div]

/-- Function `calculateCentroid` of a non-empty list of equal-length points is their
coordinate-wise mean: sum of the coordinate divided by the number of points. -/
theorem calculateCentroid_mean (pts : List (List ℚ)) (hne : pts ≠ [])
    (hd : ∀ p ∈ pts, p.length = (pts.headD []).length) (i : ℕ)
    (hi : i < (pts.headD []).length) :
    (Clustering.calculateCentroid pts).getD i 0 =
      (pts.map (fun p => p.getD i 0)).sum / (pts.length : ℚ) := by
  match pts with
  | [] => exact absurd rfl hne
  | p :: rest =>
      have hi' : i < p.length := hi
      have hfold := foldl_addInto_getD (p :: rest) (List.replicate p.length 0)
        (by
          intro q hq
          rw [List.length_replicate]
          exact hd q hq)
        i (by rw [List.length_replicate]; exact hi')
      have hrep : (List.replicate p.length (0 : ℚ)).getD i 0 = 0 := by
        rw [List.getD_eq_getElem _ _ (by simpa using hi'),
          List.getElem_replicate]
      simp only [Clustering.calculateCentroid]
      rw [getD_map_div, hfold, hrep, zero_add]

/-- The update loop at one index: non-empty cluster gets `calculateCentroid`
of its points, empty cluster keeps the old centroid. -/
theorem updateStep_getD (s : ℚ → ℚ) :
    ∀ (cl : List Clustering.Cluster) (cents : List (List ℚ)) (i : ℕ),
      i < cl.length → i < cents.length →
      (Clustering.updateStep s cl cents).1.getD i [] =
        if (cl.getD i ⟨[], []⟩).points = [] then cents.getD i []
        else Clustering.calculateCentroid (cl.getD i ⟨[], []⟩).points := by
  intro cl
  induction cl with
  | nil => intro cents i hi _; exact absurd hi (by simp)
  | cons c cl ih =>
      intro cents i hi1 hi2
      match cents with
      | [] => exact absurd hi2 (by simp)
      | cent :: cents =>
          simp only [Clustering.updateStep]
          match i with
          | 0 =>
              by_cases h : 0 < c.points.length
              · rw [if_pos h]
                simp only [List.getD_cons_zero]
                rw [if_neg (by
                  intro hc
                  rw [hc] at h
                  simp at h)]
              · rw [if_neg h]
                simp only [List.getD_cons_zero]
                rw [if_pos (List.length_eq_zero.mp (by omega))]
          | Nat.succ j =>
              by_cases h : 0 < c.points.length
              · rw [if_pos h]
                simp only [List.getD_cons_succ]
                exact ih cents j (by simpa using hi1) (by simpa using hi2)
              · rw [if_neg h]
                simp only [List.getD_cons_succ]
                exact ih cents j (by simpa using hi1) (by simpa using hi2)

/-- C5: in the centroid update performed at every `kmeans` iteration, a
cluster with no assigned points keeps its previous centroid unchanged, and a
cluster with at least one assigned (equal-length) point gets the
coordinate-wise mean of its points; and every iteration of `kmeansLoop` is
exactly an assignment pass followed by this update. -/
theorem kmeans_update_centroid_mean (s : ℚ → ℚ) :
    (∀ (cl : List Clustering.Cluster) (cents : List (List ℚ)) (i : ℕ),
      i < cl.length → i < cents.length → (cl.getD i ⟨[], []⟩).points = [] →
      (Clustering.updateStep s cl cents).1.getD i [] = cents.getD i []) ∧
    (∀ (cl : List Clustering.Cluster) (cents : List (List ℚ)) (i : ℕ),
      i < cl.length → i < cents.length →
      (cl.getD i ⟨[], []⟩).points ≠ [] →
      (∀ p ∈ (cl.getD i ⟨[], []⟩).points,
        p.length = ((cl.getD i ⟨[], []⟩).points.headD []).length) →
      ∀ d, d < ((cl.getD i ⟨[], []⟩).points.headD []).length →
      ((Clustering.updateStep s cl cents).1.getD i []).getD d 0 =
        ((cl.getD i ⟨[], []⟩).points.map (fun p => p.getD d 0)).sum /
          (((cl.getD i ⟨[], []⟩).points.length : ℕ) : ℚ)) ∧
    (∀ (data : List (List ℚ)) (fuel : ℕ) (cents : List (List ℚ)),
      Clustering.kmeansLoop s data (fuel + 1) cents =
        if (Clustering.updateStep s (Clustering.assignPoints s cents data)
            cents).2 then Clustering.assignPoints s cents data
        else Clustering.kmeansLoop s data fuel
          (Clustering.updateStep s (Clustering.assignPoints s cents data)
            cents).1) := by
  refine ⟨?_, ?_, fun data fuel cents => rfl⟩
  · intro cl cents i hi1 hi2 hempty
    rw [updateStep_getD s cl cents i hi1 hi2, if_pos hempty]
  · intro cl cents i hi1 hi2 hne hd d hdlt
    rw [updateStep_getD s cl cents i hi1 hi2, if_neg hne]
    exact calculateCentroid_mean _ hne hd d hdlt

/-- C5 witness: one cluster holding the points `[1,3]` and `[3,5]`; the
updated centroid's first coordinate is the mean `(1 + 3) / 2`. -/
theorem kmeans_update_centroid_mean_witness :
    ((Clustering.updateStep (fun _ => 0)
        [{ centroid := [9], points := [[1, 3], [3, 5]] }] [[9]]).1.getD 0
      []).getD 0 0 =
      (([[1, 3], [3, 5]] : List (List ℚ)).map (fun p => p.getD 0 0)).sum /
        (((([[1, 3], [3, 5]] : List (List ℚ)).length : ℕ)) : ℚ) :=
  (kmeans_update_centroid_mean (fun _ => 0)).2.1
    [{ centroid := [9], points := [[1, 3], [3, 5]] }] [[9]] 0 (by decide)
    (by decide) (by decide) (by decide) 0 (by decide)

/-! ## Claim: k-means argument validation (C8) -/

/-- A list of positive naturals has at least as large a sum as its length. -/
theorem length_le_sum_of_ne_zero :
    ∀ l : List ℕ, (∀ x ∈ l, x ≠ 0) → l.length ≤ l.sum := by
  intro l
  induction l with
  | nil => intro _; simp
  | cons x t ih =>
      intro h
      have hx : x ≠ 0 := h x (List.mem_cons_self x t)
      have := ih (fun y hy => h y (List.mem_cons_of_mem x hy))
      simp only [List.length_cons, List.sum_cons]
      omega

/-- C8: `kmeans` returns `nil` (its failure value) exactly on an empty point
set or non-positive `k`; for every non-empty dataset of equal-length rows and
every positive `k` — in particular `k` larger than the number of points — it
returns `k` clusters whose sizes sum to the number of points, so when
`k` exceeds the point count some clusters are simply empty. -/
theorem kmeans_invalid_args (s : ℚ → ℚ) (picks : ℕ → ℕ)
    (data : List (List ℚ)) (k : ℤ) (m : ℕ) :
    ((data = [] ∨ k ≤ 0) → Clustering.kmeans s picks data k m = none) ∧
    (data ≠ [] → 0 < k →
      ∃ cs, Clustering.kmeans s picks data k m = some cs ∧
        cs.length = k.toNat ∧
        (cs.map (fun c => c.points.length)).sum = data.length ∧
        (data.length < k.toNat → ∃ c ∈ cs, c.points = [])) := by
  constructor
  · intro h
    rw [Clustering.kmeans, if_pos (by
      rcases h with h | h
      · exact Or.inl (by rw [h]; rfl)
      · exact Or.inr h)]
  · intro hne hk
    have hg : ¬(data.length = 0 ∨ k ≤ 0) := by
      push_neg
      exact ⟨fun hc => hne (List.length_eq_zero.mp hc), by omega⟩
    obtain ⟨cents', heq, hlen⟩ := kmeansLoop_shape s data m
      ((List.range k.toNat).map (fun i => data.getD (picks i) []))
    have hlen' : cents'.length = k.toNat := by
      rw [hlen, List.length_map, List.length_range]
    have hne' : cents' ≠ [] := by
      intro hnil
      rw [hnil] at hlen'
      simp at hlen'
      omega
    obtain ⟨h1, _, h3⟩ := assignPoints_spec s cents' data hne'
    refine ⟨Clustering.kmeansLoop s data m
      ((List.range k.toNat).map (fun i => data.getD (picks i) [])), ?_, ?_, ?_, ?_⟩
    · rw [Clustering.kmeans, if_neg hg]
    · rw [heq, assignPoints_length, hlen']
    · rw [heq, h3]
    · intro hlt
      by_contra hno
      push_neg at hno
      have hall : ∀ x ∈ (Clustering.assignPoints s cents' data).map
          (fun c => c.points.length), x ≠ 0 := by
        intro x hx
        rcases List.mem_map.mp hx with ⟨c, hc, rfl⟩
        intro hzero
        have hc' := hno c (by rw [heq]; exact hc)
        exact hc' (List.length_eq_zero.mp hzero)
      have := length_le_sum_of_ne_zero _ hall
      rw [List.length_map, assignPoints_length, hlen', h3] at this
      omega

/-- C8 witness: one point, `k = 2`: the run succeeds with two clusters whose
sizes sum to one, hence one cluster is empty. -/
theorem kmeans_invalid_args_witness :
    ∃ cs, Clustering.kmeans (fun _ => 0) id [[0]] 2 1 = some cs ∧
      cs.length = (2 : ℤ).toNat ∧
      (cs.map (fun c => c.points.length)).sum = ([[0]] : List (List ℚ)).length ∧
      (([[0]] : List (List ℚ)).length < (2 : ℤ).toNat → ∃ c ∈ cs, c.points = []) :=
  (kmeans_invalid_args (fun _ => 0) id [[0]] 2 1).2 (by decide) (by decide)

/-! ## Claim: loader row filtering and parse errors (C9) -/

/-- Folding string concatenation from any seed prepends the seed. -/
theorem string_foldl_append :
    ∀ (l : List String) (a : String),
      l.foldl (· ++ ·) a = a ++ l.foldl (· ++ ·) "" := by
  intro l
  induction l with
  | nil => intro a; exact (String.append_empty a).symm
  | cons v t ih =>
      intro a
      rw [List.foldl_cons, List.foldl_cons, ih (a ++ v), ih ("" ++ v),
        String.empty_append, String.append_assoc]

/-- Go's `strings.Join` of a non-empty list starts with its first element. -/
theorem join_cons (v : String) (l : List String) :
    String.join (v :: l) = v ++ String.join l := by
  show (v :: l).foldl (· ++ ·) "" = v ++ l.foldl (· ++ ·) ""
  rw [List.foldl_cons, String.empty_append, string_foldl_append]

/-- Trimming the empty string yields the empty string. -/
theorem goTrim_empty : goTrim "" = "" := by decide

/-- The loaders' row filter keeps exactly the rows that are non-empty and
have no blank-after-trimming field: the separate `strings.Join` check of the
code is subsumed (an all-empty row has a blank first field). -/
theorem validRows_filter_spec (records : List (List String)) :
    validRows records = (records.drop 1).filter
      (fun row => !row.isEmpty && row.all (fun v => !(goTrim v == ""))) := by
  rw [validRows]
  apply List.filter_congr
  intro row _
  match row with
  | [] => simp
  | v :: rest =>
      by_cases hj : String.join (v :: rest) = ""
      · have hv : v = "" := by
          rw [join_cons] at hj
          exact append_eq_empty_left v _ hj
        rw [if_pos (Or.inr hj), hv]
        have hb : (!(goTrim "" == "") : Bool) = false := by decide
        simp [hb]
      · rw [if_neg (by push_neg; exact ⟨by simp, hj⟩)]
        simp

/-- Rows kept by the filter are non-empty. -/
theorem validRows_ne_nil (records : List (List String)) (row : List String)
    (h : row ∈ validRows records) : row ≠ [] := by
  rw [validRows_filter_spec] at h
  have hf := (List.mem_filter.mp h).2
  intro hnil
  rw [hnil] at hf
  simp at hf

/-- When every field parses, `parseFields` returns exactly the parsed
values. -/
theorem parseFields_ok (pf : String → Option ℚ) :
    ∀ (vs : List String) (j : ℕ), (∀ v ∈ vs, (pf (goTrim v)).isSome) →
      parseFields pf vs j = .ok (vs.map (fun v => (pf (goTrim v)).getD 0)) := by
  intro vs
  induction vs with
  | nil => intro j _; rfl
  | cons v vs ih =>
      intro j h
      obtain ⟨x, hx⟩ := Option.isSome_iff_exists.mp
        (h v (List.mem_cons_self v vs))
      simp only [parseFields, hx, List.map_cons]
      rw [ih (j + 1) (fun w hw => h w (List.mem_cons_of_mem v hw))]
      rfl

/-- A `parseFields` failure reports the column (relative to the start column)
of a field that does not parse. -/
theorem parseFields_err (pf : String → Option ℚ) :
    ∀ (vs : List String) (j0 j : ℕ), parseFields pf vs j0 = .error j →
      j0 ≤ j ∧ j - j0 < vs.length ∧
      pf (goTrim (vs.getD (j - j0) "")) = none := by
  intro vs
  induction vs with
  | nil => intro j0 j h; exact absurd h (by simp [parseFields])
  | cons v vs ih =>
      intro j0 j h
      cases hx : pf (goTrim v) with
      | none =>
          simp only [parseFields, hx] at h
          have hj : j0 = j := by
            injection h
          subst hj
          exact ⟨le_refl j0, by simp, by simpa using hx⟩
      | some x =>
          simp only [parseFields, hx] at h
          cases hrec : parseFields pf vs (j0 + 1) with
          | error j' =>
              rw [hrec] at h
              simp only [Except.map] at h
              have hj : j' = j := by injection h
              subst hj
              obtain ⟨h1, h2, h3⟩ := ih (j0 + 1) j' hrec
              refine ⟨by omega, by simp only [List.length_cons]; omega, ?_⟩
              have hsub : j' - j0 = (j' - (j0 + 1)) + 1 := by omega
              rw [hsub, List.getD_cons_succ]
              exact h3
          | ok ys =>
              rw [hrec] at h
              simp [Except.map] at h

/-- When every field of every (non-empty) row parses, the regression parsing
loop returns exactly the parsed features (all but the last column) and targets
(the last column). -/
theorem loadRows_ok (pf : String → Option ℚ) :
    ∀ (rows : List (List String)) (i : ℕ),
      (∀ row ∈ rows, row ≠ []) →
      (∀ row ∈ rows, ∀ v ∈ row, (pf (goTrim v)).isSome) →
      Regression.loadRows pf rows i = .ok
        (rows.map (fun row =>
          row.dropLast.map (fun v => (pf (goTrim v)).getD 0)),
         rows.map (fun row => (pf (goTrim (row.getLastD ""))).getD 0)) := by
  intro rows
  induction rows with
  | nil => intro i _ _; rfl
  | cons row rows ih =>
      intro i h1 h2
      have hfeat := parseFields_ok pf row.dropLast 0
        (fun v hv => h2 row (List.mem_cons_self row rows) v
          ((List.dropLast_sublist row).subset hv))
      have hlast : (pf (goTrim (row.getLastD ""))).isSome :=
        h2 row (List.mem_cons_self row rows) _
          (getLastD_mem row "" (h1 row (List.mem_cons_self row rows)))
      obtain ⟨t, ht⟩ := Option.isSome_iff_exists.mp hlast
      simp only [Regression.loadRows, hfeat, ht, List.map_cons]
      rw [ih (i + 1) (fun r hr => h1 r (List.mem_cons_of_mem row hr))
        (fun r hr => h2 r (List.mem_cons_of_mem row hr))]
      rfl

/-- A `featureErr` from the regression parsing loop names a kept row (1-based,
relative to the loop's start index) and a feature column that indeed fails to
parse. -/
theorem loadRows_err_feature (pf : String → Option ℚ) :
    ∀ (rows : List (List String)) (i r j : ℕ),
      Regression.loadRows pf rows i = .error (.featureErr r j) →
      ∃ m, m < rows.length ∧ r = i + m + 1 ∧
        j < (rows.getD m []).dropLast.length ∧
        pf (goTrim ((rows.getD m []).dropLast.getD j "")) = none := by
  intro rows
  induction rows with
  | nil => intro i r j h; exact absurd h (by simp [Regression.loadRows])
  | cons row rows ih =>
      intro i r j h
      cases hfe : parseFields pf row.dropLast 0 with
      | error j0 =>
          simp only [Regression.loadRows, hfe] at h
          have hinj : Regression.LoadErr.featureErr (i + 1) j0 =
              Regression.LoadErr.featureErr r j := by injection h
          have hr : i + 1 = r := by injection hinj
          have hj : j0 = j := by injection hinj
          subst hr
          subst hj
          obtain ⟨_, h2, h3⟩ := parseFields_err pf row.dropLast 0 j0 hfe
          exact ⟨0, by simp, by omega, by simpa using h2, by simpa using h3⟩
      | ok feats =>
          cases hlast : pf (goTrim (row.getLastD "")) with
          | none =>
              simp only [Regression.loadRows, hfe, hlast] at h
              have hinj : Regression.LoadErr.targetErr (i + 1) =
                  Regression.LoadErr.featureErr r j := by injection h
              exact absurd hinj (by simp)
          | some t =>
              simp only [Regression.loadRows, hfe, hlast] at h
              cases hrec : Regression.loadRows pf rows (i + 1) with
              | error e =>
                  rw [hrec] at h
                  simp only [Except.map] at h
                  have he : e = Regression.LoadErr.featureErr r j := by
                    injection h
                  subst he
                  obtain ⟨m, hm, hr, hj, hpf⟩ := ih (i + 1) r j hrec
                  exact ⟨m + 1, by simpa using hm, by omega,
                    by simpa using hj, by simpa using hpf⟩
              | ok p =>
                  rw [hrec] at h
                  simp [Except.map] at h

/-- A `targetErr` from the regression parsing loop names a kept row whose last
column indeed fails to parse. -/
theorem loadRows_err_target (pf : String → Option ℚ) :
    ∀ (rows : List (List String)) (i r : ℕ),
      Regression.loadRows pf rows i = .error (.targetErr r) →
      ∃ m, m < rows.length ∧ r = i + m + 1 ∧
        pf (goTrim ((rows.getD m []).getLastD "")) = none := by
  intro rows
  induction rows with
  | nil => intro i r h; exact absurd h (by simp [Regression.loadRows])
  | cons row rows ih =>
      intro i r h
      cases hfe : parseFields pf row.dropLast 0 with
      | error j0 =>
          simp only [Regression.loadRows, hfe] at h
          have hinj : Regression.LoadErr.featureErr (i + 1) j0 =
              Regression.LoadErr.targetErr r := by injection h
          exact absurd hinj (by simp)
      | ok feats =>
          cases hlast : pf (goTrim (row.getLastD "")) with
          | none =>
              simp only [Regression.loadRows, hfe, hlast] at h
              have hinj : Regression.LoadErr.targetErr (i + 1) =
                  Regression.LoadErr.targetErr r := by injection h
              have hr : i + 1 = r := by injection hinj
              subst hr
              exact ⟨0, by simp, by omega, by simpa using hlast⟩
          | some t =>
              simp only [Regression.loadRows, hfe, hlast] at h
              cases hrec : Regression.loadRows pf rows (i + 1) with
              | error e =>
                  rw [hrec] at h
                  simp only [Except.map] at h
                  have he : e = Regression.LoadErr.targetErr r := by injection h
                  subst he
                  obtain ⟨m, hm, hr, hpf⟩ := ih (i + 1) r hrec
                  exact ⟨m + 1, by simpa using hm, by omega, by simpa using hpf⟩
              | ok p =>
                  rw [hrec] at h
                  simp [Except.map] at h

/-- When every non-skipped field parses, the clustering parsing loop returns
exactly the parsed points (all columns but the first). -/
theorem loadPoints_ok (pf : String → Option ℚ) :
    ∀ (rows : List (List String)) (i : ℕ),
      (∀ row ∈ rows, ∀ v ∈ row.drop 1, (pf (goTrim v)).isSome) →
      Clustering.loadPoints pf rows i = .ok
        (rows.map (fun row =>
          (row.drop 1).map (fun v => (pf (goTrim v)).getD 0))) := by
  intro rows
  induction rows with
  | nil => intro i _; rfl
  | cons row rows ih =>
      intro i h
      have hfeat := parseFields_ok pf (row.drop 1) 1
        (fun v hv => h row (List.mem_cons_self row rows) v hv)
      simp only [Clustering.loadPoints, hfeat, List.map_cons]
      rw [ih (i + 1) (fun r hr => h r (List.mem_cons_of_mem row hr))]
      rfl

/-- A `valueErr` from the clustering parsing loop names a kept row (1-based)
and an original column index `j ≥ 1` whose field indeed fails to parse. -/
theorem loadPoints_err (pf : String → Option ℚ) :
    ∀ (rows : List (List String)) (i r j : ℕ),
      Clustering.loadPoints pf rows i = .error (.valueErr r j) →
      ∃ m, m < rows.length ∧ r = i + m + 1 ∧ 1 ≤ j ∧
        j - 1 < ((rows.getD m []).drop 1).length ∧
        pf (goTrim (((rows.getD m []).drop 1).getD (j - 1) "")) = none := by
  intro rows
  induction rows with
  | nil => intro i r j h; exact absurd h (by simp [Clustering.loadPoints])
  | cons row rows ih =>
      intro i r j h
      cases hfe : parseFields pf (row.drop 1) 1 with
      | error j0 =>
          simp only [Clustering.loadPoints, hfe] at h
          have hinj : Clustering.LoadErr.valueErr (i + 1) j0 =
              Clustering.LoadErr.valueErr r j := by injection h
          have hr : i + 1 = r := by injection hinj
          have hj : j0 = j := by injection hinj
          subst hr
          subst hj
          obtain ⟨h1, h2, h3⟩ := parseFields_err pf (row.drop 1) 1 j0 hfe
          exact ⟨0, by simp, by omega, h1, by simpa using h2, by simpa using h3⟩
      | ok pt =>
          simp only [Clustering.loadPoints, hfe] at h
          cases hrec : Clustering.loadPoints pf rows (i + 1) with
          | error e =>
              rw [hrec] at h
              simp only [Except.map] at h
              have he : e = Clustering.LoadErr.valueErr r j := by injection h
              subst he
              obtain ⟨m, hm, hr, hj1, hj2, hpf⟩ := ih (i + 1) r j hrec
              exact ⟨m + 1, by simpa using hm, by omega, hj1,
                by simpa using hj2, by simpa using hpf⟩
          | ok p =>
              rw [hrec] at h
              simp [Except.map] at h

/-- The classification parsing loop returns the bare parse error — no row or
column context — as soon as a row of five or more fields has an unparseable
(for instance blank) first field. -/
theorem loadCSVAux_blank_err (pf : String → Option ℚ) (row : List String)
    (rest : List (List String)) (h5 : 5 ≤ row.length)
    (h0 : pf (goTrim (row.getD 0 "")) = none) :
    Classification.loadCSVAux pf (row :: rest) =
      .error (goTrim (row.getD 0 "")) := by
  match row with
  | [] => simp at h5
  | v :: row' =>
      simp only [List.getD_cons_zero] at h0
      have hpf : parseFields pf ((v :: row').take 4) 0 = .error 0 := by
        have : (v :: row').take 4 = v :: row'.take 3 := rfl
        rw [this]
        simp only [parseFields, h0]
      simp only [Classification.loadCSVAux, hpf]
      rw [if_neg (by omega)]

/-- C9 (amended): the regression and clustering loaders exclude (rather than
error on) every data row that is empty or has a blank-after-trimming field;
each parses every remaining non-label field (all but the last column for
regression, all but the first for clustering) and fails exactly when such a
field does not parse, with an error naming the offending (1-based) kept row —
and the column for feature fields.  The classification loader instead returns
the bare parse error, with no row/column context, on any row of five or more
fields whose first field is blank or non-numeric. -/
theorem loadData_filters_and_parses (pf : String → Option ℚ) :
    (∀ records, validRows records = (records.drop 1).filter
        (fun row => !row.isEmpty && row.all (fun v => !(goTrim v == "")))) ∧
    (∀ records, 2 ≤ records.length →
      (∀ row ∈ validRows records, ∀ v ∈ row, (pf (goTrim v)).isSome) →
      Regression.loadData pf records = .ok
        { features := (validRows records).map (fun row =>
            row.dropLast.map (fun v => (pf (goTrim v)).getD 0)),
          targets := (validRows records).map
            (fun row => (pf (goTrim (row.getLastD ""))).getD 0) }) ∧
    (∀ records r j, Regression.loadData pf records =
        .error (.featureErr r j) →
      ∃ m, m < (validRows records).length ∧ r = m + 1 ∧
        j < ((validRows records).getD m []).dropLast.length ∧
        pf (goTrim (((validRows records).getD m []).dropLast.getD j "")) =
          none) ∧
    (∀ records r, Regression.loadData pf records = .error (.targetErr r) →
      ∃ m, m < (validRows records).length ∧ r = m + 1 ∧
        pf (goTrim (((validRows records).getD m []).getLastD "")) = none) ∧
    (∀ records, 2 ≤ records.length →
      (∀ row ∈ validRows records, ∀ v ∈ row.drop 1, (pf (goTrim v)).isSome) →
      Clustering.loadData pf records = .ok ((validRows records).map
        (fun row => (row.drop 1).map (fun v => (pf (goTrim v)).getD 0)))) ∧
    (∀ records r j, Clustering.loadData pf records = .error (.valueErr r j) →
      ∃ m, m < (validRows records).length ∧ r = m + 1 ∧ 1 ≤ j ∧
        j - 1 < (((validRows records).getD m []).drop 1).length ∧
        pf (goTrim ((((validRows records).getD m []).drop 1).getD (j - 1)
          "")) = none) ∧
    (∀ (row : List String) (rest : List (List String)), 5 ≤ row.length →
      pf (goTrim (row.getD 0 "")) = none →
      Classification.loadCSVAux pf (row :: rest) =
        .error (goTrim (row.getD 0 ""))) := by
  refine ⟨validRows_filter_spec, ?_, ?_, ?_, ?_, ?_, loadCSVAux_blank_err pf⟩
  · intro records hlen hparse
    rw [Regression.loadData, if_neg (by omega),
      loadRows_ok pf (validRows records) 0
        (fun row hr => validRows_ne_nil records row hr) hparse]
    rfl
  · intro records r j h
    rw [Regression.loadData] at h
    by_cases h2 : records.length < 2
    · rw [if_pos h2] at h
      have : Regression.LoadErr.notEnoughData =
          Regression.LoadErr.featureErr r j := by injection h
      exact absurd this (by simp)
    · rw [if_neg h2] at h
      cases hrec : Regression.loadRows pf (validRows records) 0 with
      | error e =>
          rw [hrec] at h
          simp only [Except.map] at h
          have he : e = Regression.LoadErr.featureErr r j := by injection h
          subst he
          obtain ⟨m, hm, hr, hj, hpf⟩ :=
            loadRows_err_feature pf (validRows records) 0 r j hrec
          exact ⟨m, hm, by omega, hj, hpf⟩
      | ok p =>
          rw [hrec] at h
          simp [Except.map] at h
  · intro records r h
    rw [Regression.loadData] at h
    by_cases h2 : records.length < 2
    · rw [if_pos h2] at h
      have : Regression.LoadErr.notEnoughData =
          Regression.LoadErr.targetErr r := by injection h
      exact absurd this (by simp)
    · rw [if_neg h2] at h
      cases hrec : Regression.loadRows pf (validRows records) 0 with
      | error e =>
          rw [hrec] at h
          simp only [Except.map] at h
          have he : e = Regression.LoadErr.targetErr r := by injection h
          subst he
          obtain ⟨m, hm, hr, hpf⟩ :=
            loadRows_err_target pf (validRows records) 0 r hrec
          exact ⟨m, hm, by omega, hpf⟩
      | ok p =>
          rw [hrec] at h
          simp [Except.map] at h
  · intro records hlen hparse
    rw [Clustering.loadData, if_neg (by omega),
      loadPoints_ok pf (validRows records) 0 hparse]
  · intro records r j h
    rw [Clustering.loadData] at h
    by_cases h2 : records.length < 2
    · rw [if_pos h2] at h
      have : Clustering.LoadErr.notEnoughData =
          Clustering.LoadErr.valueErr r j := by injection h
      exact absurd this (by simp)
    · rw [if_neg h2] at h
      obtain ⟨m, hm, hr, hj1, hj2, hpf⟩ :=
        loadPoints_err pf (validRows records) 0 r j h
      exact ⟨m, hm, by omega, hj1, hj2, hpf⟩

/-- C9 (counterexample): on the same data row `["", "1", "1", "1", "X"]`
(whose first field is blank), the classification loader returns a parse error
instead of excluding the row, while the regression loader — as the claim
describes — excludes it and succeeds. -/
theorem loadCSV_blank_field_errors :
    Classification.loadCSV (fun t => if t = "1" then some 1 else none)
      [["h1", "h2", "h3", "h4", "h5"], ["", "1", "1", "1", "X"]] =
      .error "" ∧
    Regression.loadData (fun t => if t = "1" then some 1 else none)
      [["h1", "h2", "h3", "h4", "h5"], ["", "1", "1", "1", "X"]] =
      .ok { features := [], targets := [] } := by
  constructor
  · rfl
  · rfl

/-- C9 witness: a loader run in which every field parses returns exactly the
kept rows, split into features and targets. -/
theorem loadData_filters_and_parses_witness :
    Regression.loadData (fun _ => some 1) [["h1"], ["a", "b"]] =
      .ok { features := [[1]], targets := [1] } :=
  (loadData_filters_and_parses (fun _ => some 1)).2.1 [["h1"], ["a", "b"]]
    (by decide) (by decide)
